import Mathlib

/-!
# Verification of `jira-sizer` (`src/main.ts`)

Shallow embedding of the pure/decision logic of `src/main.ts` together with
theorems settling the specification's claims about it.

Modelling conventions:
* JS strings are `String`, numbers used as sprint ids are `Nat`, and parsed
  start/end timestamps (`new Date(s).getTime()`) are `Option Int` (the field
  `startDate?: string` of the source becomes the parsed time value).
* The paginated HTTP sprint listing is modelled by a finite trace of page
  responses (`PageResult`): the loop of `getAllSprints` consumes one trace
  element per request, a `failure` element standing for a request that
  throws (caught by the source's `catch`, which returns `[]`).
* JS objects used as string-keyed maps (`EpicGroup`) are association lists in
  insertion order (`List GroupEntry`); Jira epic keys (`"ABC-123"` style) and
  the sentinel `"NO_EPIC"` are not array indices, for which `Object.entries`
  iterates in insertion order, and `delete` removes the single property.
* `Array.prototype.sort` (stable since ES2019) is modelled as a stable
  insertion sort with the source's comparator.
-/

namespace JiraSizer

/-- Sprint record, from the `Sprint` interface of `main.ts` (id, name, state,
optional start/end dates; dates modelled as parsed timestamps). -/
structure Sprint where
  id : Nat
  name : String
  state : String
  startDate : Option Int
  endDate : Option Int
deriving DecidableEq, Repr

/-- `fields.parent.fields` of a Jira issue (the parent epic's summary). -/
structure ParentFields where
  summary : String
deriving DecidableEq, Repr

/-- `fields.parent` of a Jira issue: the parent epic reference. -/
structure Parent where
  key : String
  fields : ParentFields
deriving DecidableEq, Repr

/-- `fields.status` of a Jira issue. -/
structure Status where
  name : String
deriving DecidableEq, Repr

/-- `fields` of a Jira issue, from the `JiraIssue` interface of `main.ts`. -/
structure IssueFields where
  summary : String
  status : Status
  parent : Option Parent
deriving DecidableEq, Repr

/-- A Jira issue, from the `JiraIssue` interface of `main.ts`. -/
structure JiraIssue where
  id : String
  key : String
  fields : IssueFields
deriving DecidableEq, Repr

/-! ## Substring test (`String.prototype.includes`) -/

/-- `isPrefixChars n h` : the char list `n` is a prefix of `h`. -/
def isPrefixChars : List Char → List Char → Bool
  | [], _ => true
  | _ :: _, [] => false
  | a :: as, b :: bs => a == b && isPrefixChars as bs

/-- `hasSubstrChars n h` : the char list `n` occurs contiguously in `h`. -/
def hasSubstrChars (needle : List Char) : List Char → Bool
  | [] => isPrefixChars needle []
  | c :: rest => isPrefixChars needle (c :: rest) || hasSubstrChars needle rest

/-- JS `hay.includes(needle)` for strings. -/
def strIncludes (hay needle : String) : Bool :=
  hasSubstrChars needle.toList hay.toList

/-! ## Sprint Selector (`getNextSprint`, `main.ts` lines 150-183)

The source's `getNextSprint(boardId)` first awaits `getAllSprints` and then
applies a pure three-tier selection to the resulting list; `getNextSprint`
below is that pure selection, taking the already-fetched list. -/

/-- Pure selection logic of `getNextSprint`: filter to future sprints whose
name does not contain `"DevOps"` and take the first; else first active
sprint; else the first sprint of the list; else `none`. Translated from
`main.ts` lines 150-183 (`filter`, `.length > 0` tests, `[0]` indexing). -/
def getNextSprint (allSprints : List Sprint) : Option Sprint :=
  let futureSprints := allSprints.filter
    (fun s => s.state == "future" && !(strIncludes s.name "DevOps"))
  if h : 0 < futureSprints.length then
    some (futureSprints.get ⟨0, h⟩)
  else
    let activeSprints := allSprints.filter (fun s => s.state == "active")
    if h2 : 0 < activeSprints.length then
      some (activeSprints.get ⟨0, h2⟩)
    else if h3 : 0 < allSprints.length then
      some (allSprints.get ⟨0, h3⟩)
    else
      none

/-- The first element of a filtered list is the first element satisfying the
predicate. -/
theorem head?_filter_eq_find? (p : Sprint → Bool) (l : List Sprint) :
    (l.filter p).head? = l.find? p := by
  induction l with
  | nil => rfl
  | cons a t ih =>
      by_cases h : p a = true
      · simp [List.filter_cons, List.find?_cons, h]
      · simp only [Bool.not_eq_true] at h
        simp [List.filter_cons, List.find?_cons, h, ih]

/-- Guarded first-element indexing equals `head?` with a fallback. -/
theorem dite_get_zero_eq_head? (xs : List Sprint) (y : Option Sprint) :
    (if h : 0 < xs.length then some (xs.get ⟨0, h⟩) else y)
      = (match xs.head? with
         | some a => some a
         | none => y) := by
  cases xs <;> simp

/-- C1. Sprint Selector three-tier fallback: `getNextSprint` returns the
first sprint whose state is `"future"` and whose name does not contain
`"DevOps"` if one exists; else the first sprint with state `"active"` if one
exists; else the first sprint of the sequence if it is non-empty; else
`none`. -/
theorem getNextSprint_three_tier (l : List Sprint) :
    getNextSprint l =
      (match l.find? (fun s => s.state == "future" && !(strIncludes s.name "DevOps")) with
       | some s => some s
       | none =>
         match l.find? (fun s => s.state == "active") with
         | some s => some s
         | none => l.head?) := by
  unfold getNextSprint
  rw [dite_get_zero_eq_head?, head?_filter_eq_find?]
  cases hf : l.find? (fun s => s.state == "future" && !(strIncludes s.name "DevOps")) with
  | some s => rfl
  | none =>
      simp only []
      rw [dite_get_zero_eq_head?, head?_filter_eq_find?]
      cases ha : l.find? (fun s => s.state == "active") with
      | some s => rfl
      | none =>
          simp only []
          rw [dite_get_zero_eq_head?]
          cases l <;> rfl

/-! ## Sprint-from-ticket (`getSprintFromAgileAPI`, `main.ts` lines 290-335) -/

/-- Shape of the custom field `cf[10007]` as read from the ticket-detail
response: absent (falsy), present but not an array, an array of sprint
records, or the whole request failing (caught, yielding `null`). -/
inductive FieldValue where
  | missing : FieldValue
  | notArray : FieldValue
  | failure : FieldValue
  | arr (values : List Sprint) : FieldValue
deriving DecidableEq, Repr

/-- `getSprintFromAgileAPI`, `main.ts` lines 290-335: if the custom field is
a non-empty array, return its last element (`customSprint[customSprint.length
- 1]`, rebuilt as a `Sprint` record); otherwise (missing, not an array,
empty, or request failure) return `none`. -/
def getSprintFromAgileAPI : FieldValue → Option Sprint
  | .arr values => if 0 < values.length then values.getLast? else none
  | _ => none

/-- C4. `getSprintFromAgileAPI` returns the last element of the custom
field's sequence when it is a non-empty array, and `none` when the field is
missing, not an array, or empty; in particular the field
`[{id:1,name:"S1"},{id:2,name:"S2"}]` yields the sprint named `"S2"`. -/
theorem getSprintFromAgileAPI_last :
    (∀ (l : List Sprint) (s : Sprint),
        getSprintFromAgileAPI (.arr (l ++ [s])) = some s)
    ∧ getSprintFromAgileAPI .missing = none
    ∧ getSprintFromAgileAPI .notArray = none
    ∧ getSprintFromAgileAPI (.arr []) = none
    ∧ getSprintFromAgileAPI
        (.arr [⟨1, "S1", "future", none, none⟩, ⟨2, "S2", "future", none, none⟩])
        = some ⟨2, "S2", "future", none, none⟩ := by
  refine ⟨fun l s => ?_, rfl, rfl, rfl, by decide⟩
  simp [getSprintFromAgileAPI]

/-! ## Epic groups and the Command Formatter
(`organizeIssuesByEpic` / `generateSlackCommands`, `main.ts` lines 337-390) -/

/-- One entry of the `EpicGroup` object of `main.ts`: a key (epic key or the
sentinel `"NO_EPIC"`), the group's display name, and its issues. The whole
object is a `List GroupEntry` in property-insertion order. -/
structure GroupEntry where
  key : String
  epicName : String
  issues : List JiraIssue
deriving DecidableEq, Repr

/-- One output line of `generateSlackCommands`:
`"/pp " + issueUrl + ` + the summary + newline, where
`issueUrl = JIRA_BASE_URL + "/browse/" + issue.key` (`main.ts` lines 382-383). -/
def issueLine (baseUrl : String) (i : JiraIssue) : String :=
  "/pp " ++ (baseUrl ++ "/browse/" ++ i.key) ++ " " ++ i.fields.summary ++ "\n"

/-- `generateSlackCommands`, `main.ts` lines 373-390: fold over the groups in
order, appending one line per issue and a blank line after each group. -/
def generateSlackCommands (baseUrl : String) (groups : List GroupEntry) : String :=
  groups.foldl
    (fun output g =>
      (g.issues.foldl (fun o i => o ++ issueLine baseUrl i) output) ++ "\n")
    ""

/-- Concatenation of a list of strings. -/
def strConcat : List String → String
  | [] => ""
  | a :: t => a ++ strConcat t

/-- Modelled from the spec's words (§4.5): for each group in iteration order,
for each ticket in that group, one `/pp <baseUrl>/browse/<key> <summary>`
line, then one blank line after each group. -/
def renderSpec (baseUrl : String) (groups : List GroupEntry) : String :=
  strConcat (groups.map (fun g => strConcat (g.issues.map (issueLine baseUrl)) ++ "\n"))

theorem strAppend_assoc (a b c : String) : a ++ b ++ c = a ++ (b ++ c) := by
  apply String.ext
  simp [String.data_append, List.append_assoc]

theorem strAppend_empty (a : String) : a ++ "" = a := by
  apply String.ext
  simp [String.data_append]

/-- Accumulating fold of string pieces equals the accumulator followed by the
concatenation of the pieces. -/
theorem foldl_strAppend (f : JiraIssue → String) (l : List JiraIssue) :
    ∀ s : String, l.foldl (fun o i => o ++ f i) s = s ++ strConcat (l.map f) := by
  induction l with
  | nil => intro s; simp [strConcat, strAppend_empty]
  | cons a t ih =>
      intro s
      simp only [List.foldl_cons, List.map_cons, strConcat, ih, strAppend_assoc]

/-- The group-level fold of `generateSlackCommands` equals the accumulator
followed by the spec rendering. -/
theorem foldl_groups_eq (baseUrl : String) (groups : List GroupEntry) :
    ∀ s : String,
      groups.foldl
        (fun output g =>
          (g.issues.foldl (fun o i => o ++ issueLine baseUrl i) output) ++ "\n")
        s = s ++ renderSpec baseUrl groups := by
  induction groups with
  | nil => intro s; simp [renderSpec, strConcat, strAppend_empty]
  | cons g gs ih =>
      intro s
      rw [List.foldl_cons, ih, foldl_strAppend]
      apply String.ext
      simp [renderSpec, strConcat, String.data_append, List.append_assoc]

/-- Rendering a cons of groups renders the first group's lines and blank line
first, then the rest. -/
theorem generateSlackCommands_cons (baseUrl : String) (g : GroupEntry)
    (gs : List GroupEntry) :
    generateSlackCommands baseUrl (g :: gs)
      = (strConcat (g.issues.map (issueLine baseUrl)) ++ "\n")
          ++ generateSlackCommands baseUrl gs := by
  unfold generateSlackCommands
  rw [foldl_groups_eq, foldl_groups_eq]
  apply String.ext
  simp [renderSpec, strConcat, String.data_append, List.append_assoc]

/-- C6. For every mapping of groups, in iteration (insertion) order, the
Formatter emits one line `"/pp <baseUrl>/browse/<key> <summary>\n"` per
ticket of each group followed by one blank line after each group (the
map-and-concatenate form `renderSpec`); for the group `EPIC-1` with the one
ticket `{key:"T-1", summary:"Fix bug"}` and base URL
`https://x.atlassian.net` the output is exactly
`"/pp https://x.atlassian.net/browse/T-1 Fix bug\n"` followed by a blank
line. -/
theorem generateSlackCommands_renderSpec :
    (∀ (baseUrl : String) (groups : List GroupEntry),
        generateSlackCommands baseUrl groups = renderSpec baseUrl groups)
    ∧ generateSlackCommands "https://x.atlassian.net"
        [⟨"EPIC-1", "Login", [⟨"1", "T-1", ⟨"Fix bug", ⟨"Ready to Size"⟩, none⟩⟩]⟩]
      = "/pp https://x.atlassian.net/browse/T-1 Fix bug\n" ++ "\n" := by
  constructor
  · intro baseUrl groups
    unfold generateSlackCommands
    rw [foldl_groups_eq]
    apply String.ext
    simp [String.data_append]
  · decide

/-! ## Sprint listing (`getAllSprints`, `main.ts` lines 66-115) -/

/-- `MAX_SPRINTS_TO_FETCH` of `main.ts` line 66. -/
def MAX_SPRINTS_TO_FETCH : Nat := 1000

/-- The source comparator (line 104-109) as a "may come first" relation:
`leDate a b` holds when the comparator value
`new Date(b.startDate) - new Date(a.startDate)` is `≤ 0`, i.e. when `b`'s
date is at most `a`'s; when either date is missing the comparator returns
`0`, so the relation holds in both directions. -/
def leDate (a b : Sprint) : Bool :=
  match a.startDate, b.startDate with
  | some da, some db => decide (db ≤ da)
  | _, _ => true

/-- Stable insertion of a sprint into a list: placed before the first element
it may precede (ties keep earlier-processed elements first). -/
def insertSprint (a : Sprint) : List Sprint → List Sprint
  | [] => [a]
  | b :: t => if leDate a b then a :: b :: t else b :: insertSprint a t

/-- Model of `sprints.sort(comparator)` (line 103-109): stable sort by the
source's comparator. -/
def sortSprints : List Sprint → List Sprint
  | [] => []
  | a :: t => insertSprint a (sortSprints t)

/-- Adjacent-pairs sortedness under the source's comparator. -/
def chainLeDate : List Sprint → Bool
  | [] => true
  | [_] => true
  | a :: b :: t => leDate a b && chainLeDate (b :: t)

/-- All-pairs sortedness under the source's comparator: every element may
precede every later element (missing dates comparing equal). -/
def pairwiseLeDate : List Sprint → Bool
  | [] => true
  | a :: t => t.all (fun b => leDate a b) && pairwiseLeDate t

/-- One page response of the paginated sprint listing: a request that throws,
a response without a `values` field, or a `{values, isLast, total}` body. -/
inductive PageResult where
  | failure : PageResult
  | noValues : PageResult
  | page (values : List Sprint) (isLast : Bool) (total : Nat) : PageResult
deriving DecidableEq, Repr

/-- The `while` loop of `getAllSprints` (lines 75-100), consuming one trace
element per request. Returns `Except.error ()` when a request throws (the
exception reaching the surrounding `try`), otherwise the accumulated
sprints at loop exit. A response without `values` sets `isLast` and exits;
a page appends its values, recomputes `isLast` from
`isLast || startAt + values.length >= total`, and advances `startAt` by the
page size 50. The loop guard is `!isLast && sprints.length <
MAX_SPRINTS_TO_FETCH`; an exhausted trace means the service gave no further
responses. -/
def runPages : List PageResult → List Sprint → Nat → Except Unit (List Sprint)
  | [], sprints, _ => .ok sprints
  | p :: rest, sprints, startAt =>
    if sprints.length < MAX_SPRINTS_TO_FETCH then
      match p with
      | .failure => .error ()
      | .noValues => .ok sprints
      | .page values isLast total =>
        let sprints2 := sprints ++ values
        if isLast || decide (startAt + values.length ≥ total) then .ok sprints2
        else runPages rest sprints2 (startAt + 50)
    else .ok sprints

/-- `getAllSprints` (lines 68-115): run the pagination loop; on success sort
by the comparator and truncate to `MAX_SPRINTS_TO_FETCH` (`.slice(0, 1000)`);
if any request threw, the `catch` logs and returns `[]`. -/
def getAllSprints (pages : List PageResult) : List Sprint :=
  match runPages pages [] 0 with
  | .error _ => []
  | .ok sprints => (sortSprints sprints).take MAX_SPRINTS_TO_FETCH

/-- The comparator relation is total. -/
theorem leDate_total (a b : Sprint) : leDate a b = true ∨ leDate b a = true := by
  unfold leDate
  cases a.startDate with
  | none => left; rfl
  | some da =>
      cases b.startDate with
      | none => left; rfl
      | some db =>
          rcases Int.le_total db da with h | h
          · left; simpa using h
          · right; simpa using h

/-- Inserting into an adjacent-sorted list keeps it adjacent-sorted. -/
theorem chainLeDate_insertSprint (a : Sprint) (l : List Sprint)
    (hl : chainLeDate l = true) : chainLeDate (insertSprint a l) = true := by
  induction l with
  | nil => rfl
  | cons b t ih =>
      by_cases hab : leDate a b = true
      · simp only [insertSprint, hab, if_true]
        cases t <;> simp_all [chainLeDate]
      · have hba : leDate b a = true := by
          rcases leDate_total a b with h | h
          · exact absurd h hab
          · exact h
        simp only [insertSprint, hab, if_false, Bool.false_eq_true]
        cases t with
        | nil => simp [insertSprint, chainLeDate, hba]
        | cons c t' =>
            have hbc : leDate b c = true := by
              simp [chainLeDate] at hl
              exact hl.1
            have hct : chainLeDate (c :: t') = true := by
              simp [chainLeDate] at hl
              simpa [chainLeDate] using hl.2
            by_cases hac : leDate a c = true
            · simp [insertSprint, hac, chainLeDate, hba, hct]
            · have := ih hct
              simp only [insertSprint, hac, if_false, Bool.false_eq_true] at this ⊢
              simp [chainLeDate, hbc]
              exact this

/-- The sort model produces an adjacent-sorted list. -/
theorem chainLeDate_sortSprints (l : List Sprint) :
    chainLeDate (sortSprints l) = true := by
  induction l with
  | nil => rfl
  | cons a t ih => exact chainLeDate_insertSprint a _ ih

/-- Truncation keeps adjacent sortedness. -/
theorem chainLeDate_take (l : List Sprint) :
    ∀ n, chainLeDate l = true → chainLeDate (l.take n) = true := by
  induction l with
  | nil => intro n _; simp [chainLeDate]
  | cons a t ih =>
      intro n h
      cases n with
      | zero => rfl
      | succ m =>
          cases t with
          | nil => cases m <;> rfl
          | cons b t' =>
              simp only [chainLeDate, Bool.and_eq_true] at h
              cases m with
              | zero => rfl
              | succ m' =>
                  have := ih (m' + 1) h.2
                  simpa [List.take, chainLeDate, h.1] using this

/-- C3 (amended). For every page trace, the `getAllSprints` output is sorted
in the adjacent sense of the source's comparator — consecutive entries are
non-increasing by start date, any comparison involving a missing start date
counting as equal — and contains at most `MAX_SPRINTS_TO_FETCH = 1000`
sprints. (Global non-increasing order among dated entries does not hold:
see the counterexample.) -/
theorem getAllSprints_chain_sorted_capped (pages : List PageResult) :
    chainLeDate (getAllSprints pages) = true
      ∧ (getAllSprints pages).length ≤ MAX_SPRINTS_TO_FETCH := by
  unfold getAllSprints
  cases hr : runPages pages [] 0 with
  | error e => exact ⟨rfl, by simp⟩
  | ok sprints =>
      refine ⟨chainLeDate_take _ _ (chainLeDate_sortSprints sprints), ?_⟩
      calc ((sortSprints sprints).take MAX_SPRINTS_TO_FETCH).length
          ≤ MAX_SPRINTS_TO_FETCH := by
            rw [List.length_take]
            exact min_le_left _ _

/-- C3 (counterexample). On the single successful page
`[A(start 1), B(no start), C(start 5)]` the output keeps the input order,
so the dated sprints `A` and `C` appear in strictly increasing date order:
the output is not all-pairs non-increasing by start date even with missing
dates comparing equal. -/
theorem getAllSprints_not_pairwise_sorted :
    getAllSprints
        [PageResult.page
          [⟨1, "A", "closed", some 1, none⟩, ⟨2, "B", "closed", none, none⟩,
           ⟨3, "C", "closed", some 5, none⟩] true 3]
      = [⟨1, "A", "closed", some 1, none⟩, ⟨2, "B", "closed", none, none⟩,
         ⟨3, "C", "closed", some 5, none⟩]
    ∧ pairwiseLeDate
        (getAllSprints
          [PageResult.page
            [⟨1, "A", "closed", some 1, none⟩, ⟨2, "B", "closed", none, none⟩,
             ⟨3, "C", "closed", some 5, none⟩] true 3]) = false := by
  constructor
  · rfl
  · rfl

/-- C2 (amended). When any page request of the pagination loop fails, the
whole listing returns the empty list — the sprints collected from earlier
successful pages are discarded — and the failure is not propagated (the
function still returns a list normally). -/
theorem getAllSprints_error_empty (pages : List PageResult) (e : Unit)
    (h : runPages pages [] 0 = Except.error e) : getAllSprints pages = [] := by
  unfold getAllSprints
  rw [h]

/-- Witness for C2 (amended): a successful first page holding one sprint
followed by a failing request yields `[]`. -/
theorem getAllSprints_error_empty_witness :
    runPages
        [PageResult.page [⟨1, "A", "closed", some 1, none⟩] false 100,
         PageResult.failure] [] 0 = Except.error ()
    ∧ getAllSprints
        [PageResult.page [⟨1, "A", "closed", some 1, none⟩] false 100,
         PageResult.failure] = [] :=
  ⟨rfl, getAllSprints_error_empty _ () rfl⟩

/-- C2 (counterexample). With a successful first page holding one sprint and
a failing second request, `getAllSprints` returns `[]`, not the sprints
collected so far. -/
theorem getAllSprints_discards_partial :
    getAllSprints
        [PageResult.page [⟨1, "A", "closed", some 1, none⟩] false 100,
         PageResult.failure] = []
    ∧ getAllSprints
        [PageResult.page [⟨1, "A", "closed", some 1, none⟩] false 100,
         PageResult.failure] ≠ [⟨1, "A", "closed", some 1, none⟩] := by
  exact ⟨rfl, by decide⟩

/-! ## Epic Grouper (`organizeIssuesByEpic`, `main.ts` lines 337-371) -/

/-- The key under which `organizeIssuesByEpic` files an issue: the parent
epic's key, or the sentinel `"NO_EPIC"` when the issue has no parent. -/
def keyOf (t : JiraIssue) : String :=
  match t.fields.parent with
  | some p => p.key
  | none => "NO_EPIC"

/-- JS truthiness test `epicGroups[epicKey]` on the association list. -/
def hasKey (groups : List GroupEntry) (k : String) : Bool :=
  groups.any (fun g => g.key == k)

/-- `epicGroups[k].issues.push(issue)`: append `i` to the entry keyed `k`
(no-op when the key is absent; the source only pushes to existing keys). -/
def appendToKey (groups : List GroupEntry) (k : String) (i : JiraIssue) :
    List GroupEntry :=
  groups.map (fun g => if g.key == k then {g with issues := g.issues ++ [i]} else g)

/-- The body of the `issues.forEach` of `organizeIssuesByEpic` (lines
346-363): an issue with a parent is pushed to the group keyed by the parent's
key, creating that group (with the parent's summary as display name) when the
key is new; an issue without a parent is pushed to the `"NO_EPIC"` group. -/
def stepIssue (groups : List GroupEntry) (issue : JiraIssue) : List GroupEntry :=
  match issue.fields.parent with
  | some p =>
    let groups2 :=
      if hasKey groups p.key then groups
      else groups ++ [⟨p.key, p.fields.summary, []⟩]
    appendToKey groups2 p.key issue
  | none => appendToKey groups "NO_EPIC" issue

/-- The initial `epicGroups` object (lines 340-344): the sentinel group. -/
def initGroups : List GroupEntry := [⟨"NO_EPIC", "Tasks without Epic", []⟩]

/-- `epicGroups[k]` as a lookup: first entry with key `k`. -/
def findGroup (groups : List GroupEntry) (k : String) : Option GroupEntry :=
  groups.find? (fun g => g.key == k)

/-- The `forEach` pass of `organizeIssuesByEpic` over all issues. -/
def epicFold (issues : List JiraIssue) : List GroupEntry :=
  issues.foldl stepIssue initGroups

/-- `organizeIssuesByEpic` (lines 337-371): run the grouping pass, then
`delete epicGroups["NO_EPIC"]` when that group ended up with no issues. -/
def organizeIssuesByEpic (issues : List JiraIssue) : List GroupEntry :=
  let groups := epicFold issues
  match findGroup groups "NO_EPIC" with
  | some g =>
    if g.issues.isEmpty then groups.eraseP (fun g2 => g2.key == "NO_EPIC")
    else groups
  | none => groups

/-- Display name recorded when `stepIssue` creates a new entry for `issue`. -/
def newName (i : JiraIssue) : String :=
  match i.fields.parent with
  | some p => p.fields.summary
  | none => "Tasks without Epic"

/-- The parent summary carried by the first issue of the list whose parent
epic key is `k`. -/
def firstParentSummary (issues : List JiraIssue) (k : String) : Option String :=
  issues.findSome? (fun t =>
    match t.fields.parent with
    | some p => if p.key == k then some p.fields.summary else none
    | none => none)

/-- Unfolding `findGroup` on a cons. -/
theorem findGroup_cons (g : GroupEntry) (t : List GroupEntry) (k : String) :
    findGroup (g :: t) k = if g.key == k then some g else findGroup t k := by
  unfold findGroup
  rw [List.find?_cons]
  cases h : g.key == k <;> simp [h]

/-- `appendToKey` does not change the keys of the entries. -/
theorem keys_appendToKey (gs : List GroupEntry) (k : String) (i : JiraIssue) :
    (appendToKey gs k i).map (fun g => g.key) = gs.map (fun g => g.key) := by
  induction gs with
  | nil => rfl
  | cons g t ih =>
      simp only [appendToKey] at ih ⊢
      rw [List.map_cons, List.map_cons, ih]
      cases h : g.key == k <;> rfl

/-- Lookup after `appendToKey`: the found entry gets the issue appended
exactly when its key is the targeted one. -/
theorem findGroup_appendToKey (gs : List GroupEntry) (k k' : String) (i : JiraIssue) :
    findGroup (appendToKey gs k i) k'
      = (findGroup gs k').map
          (fun g => if g.key == k then {g with issues := g.issues ++ [i]} else g) := by
  induction gs with
  | nil => rfl
  | cons g t ih =>
      have e1 : appendToKey (g :: t) k i
          = (if g.key == k then {g with issues := g.issues ++ [i]} else g)
              :: appendToKey t k i := rfl
      rw [e1, findGroup_cons, findGroup_cons]
      have hkey : (if g.key == k then {g with issues := g.issues ++ [i]} else g).key
          = g.key := by
        cases h : g.key == k <;> simp [h]
      rw [hkey]
      cases hk' : g.key == k' <;> simp [ih]

/-- Lookup in a list extended on the right by one entry. -/
theorem findGroup_append_single (gs : List GroupEntry) (e : GroupEntry) (k : String) :
    findGroup (gs ++ [e]) k
      = (match findGroup gs k with
         | some g => some g
         | none => if e.key == k then some e else none) := by
  induction gs with
  | nil =>
      rw [List.nil_append, findGroup_cons]
      cases h : e.key == k <;> simp [h, findGroup, List.find?]
  | cons g t ih =>
      rw [List.cons_append, findGroup_cons, findGroup_cons]
      cases h : g.key == k <;> simp [ih]

/-- `hasKey` is definedness of `findGroup`. -/
theorem hasKey_eq_isSome (gs : List GroupEntry) (k : String) :
    hasKey gs k = (findGroup gs k).isSome := by
  induction gs with
  | nil => rfl
  | cons g t ih =>
      unfold hasKey at ih ⊢
      rw [List.any_cons, findGroup_cons]
      cases h : g.key == k <;> simp [h, ih]

/-- An absent key is not among the entry keys. -/
theorem not_mem_keys_of_hasKey_false (gs : List GroupEntry) (k : String)
    (h : hasKey gs k = false) : k ∉ gs.map (fun g => g.key) := by
  intro hmem
  rcases List.mem_map.mp hmem with ⟨g, hg, hkey⟩
  have : hasKey gs k = true := by
    unfold hasKey
    rw [List.any_eq_true]
    exact ⟨g, hg, by simp [hkey]⟩
  simp [this] at h

/-- The entry found under key `k` has key `k`. -/
theorem findGroup_key (gs : List GroupEntry) (k : String) (g : GroupEntry)
    (h : findGroup gs k = some g) : g.key = k := by
  unfold findGroup at h
  have hb := List.find?_some h
  simpa using hb

/-- The entry found under a key is a member of the list. -/
theorem findGroup_mem (gs : List GroupEntry) (k : String) (g : GroupEntry)
    (h : findGroup gs k = some g) : g ∈ gs :=
  List.mem_of_find?_eq_some h

/-- Effect of one grouping step on lookups, given that the sentinel entry is
present: the entry keyed `keyOf i` gets `i` appended (being created with the
parent's summary as name when absent); all other lookups are unchanged. -/
theorem findGroup_stepIssue (gs : List GroupEntry) (i : JiraIssue) (k : String)
    (hs : hasKey gs "NO_EPIC" = true) :
    findGroup (stepIssue gs i) k
      = if k = keyOf i then
          (match findGroup gs k with
           | some g => some {g with issues := g.issues ++ [i]}
           | none => some ⟨k, newName i, [i]⟩)
        else findGroup gs k := by
  cases hp : i.fields.parent with
  | none =>
      have hkof : keyOf i = "NO_EPIC" := by unfold keyOf; rw [hp]
      have hstep : stepIssue gs i = appendToKey gs "NO_EPIC" i := by
        unfold stepIssue; rw [hp]
      rw [hstep, findGroup_appendToKey, hkof]
      by_cases hk : k = "NO_EPIC"
      · rw [if_pos hk, hk]
        have hsome : (findGroup gs "NO_EPIC").isSome := by
          rw [← hasKey_eq_isSome]; exact hs
        cases hg0 : findGroup gs "NO_EPIC" with
        | none => rw [hg0] at hsome; simp at hsome
        | some g0 =>
            have hkey0 : g0.key = "NO_EPIC" := findGroup_key _ _ _ hg0
            simp [hkey0]
      · rw [if_neg hk]
        cases hg0 : findGroup gs k with
        | none => simp
        | some g0 =>
            have hkey0 : g0.key = k := findGroup_key _ _ _ hg0
            simp [hkey0, hk]
  | some p =>
      have hkof : keyOf i = p.key := by unfold keyOf; rw [hp]
      cases hh : hasKey gs p.key with
      | true =>
          have hstep : stepIssue gs i = appendToKey gs p.key i := by
            unfold stepIssue; rw [hp]; simp [hh]
          rw [hstep, findGroup_appendToKey, hkof]
          by_cases hk : k = p.key
          · rw [if_pos hk, hk]
            have hsome : (findGroup gs p.key).isSome := by
              rw [← hasKey_eq_isSome]; exact hh
            cases hg0 : findGroup gs p.key with
            | none => rw [hg0] at hsome; simp at hsome
            | some g0 =>
                have hkey0 : g0.key = p.key := findGroup_key _ _ _ hg0
                simp [hkey0]
          · rw [if_neg hk]
            cases hg0 : findGroup gs k with
            | none => simp
            | some g0 =>
                have hkey0 : g0.key = k := findGroup_key _ _ _ hg0
                simp [hkey0, hk]
      | false =>
          have hstep : stepIssue gs i
              = appendToKey (gs ++ [⟨p.key, p.fields.summary, []⟩]) p.key i := by
            unfold stepIssue; rw [hp]; simp [hh]
          rw [hstep, findGroup_appendToKey, findGroup_append_single, hkof]
          by_cases hk : k = p.key
          · rw [if_pos hk, hk]
            have hnone : findGroup gs p.key = none := by
              have he := hasKey_eq_isSome gs p.key
              rw [hh] at he
              cases hg : findGroup gs p.key
              · rfl
              · rw [hg] at he; simp at he
            rw [hnone]
            simp [newName, hp]
          · rw [if_neg hk]
            cases hg0 : findGroup gs k with
            | none =>
                have hne : (p.key == k) = false := by
                  simp only [beq_eq_false_iff_ne, ne_eq]
                  exact fun h2 => hk h2.symm
                simp [hne]
            | some g0 =>
                have hkey0 : g0.key = k := findGroup_key _ _ _ hg0
                have hne : (g0.key == p.key) = false := by
                  simp only [beq_eq_false_iff_ne, ne_eq, hkey0]
                  exact hk
                simp [hne]
                intro h2
                simp [h2] at hne

/-- Effect of one grouping step on the key list, given the sentinel entry:
unchanged when `keyOf i` is already present, extended on the right by
`keyOf i` otherwise. -/
theorem keys_stepIssue (gs : List GroupEntry) (i : JiraIssue)
    (hs : hasKey gs "NO_EPIC" = true) :
    (stepIssue gs i).map (fun g => g.key)
      = if hasKey gs (keyOf i) then gs.map (fun g => g.key)
        else gs.map (fun g => g.key) ++ [keyOf i] := by
  cases hp : i.fields.parent with
  | none =>
      have hkof : keyOf i = "NO_EPIC" := by unfold keyOf; rw [hp]
      have hstep : stepIssue gs i = appendToKey gs "NO_EPIC" i := by
        unfold stepIssue; rw [hp]
      rw [hstep, keys_appendToKey, hkof, if_pos hs]
  | some p =>
      have hkof : keyOf i = p.key := by unfold keyOf; rw [hp]
      rw [hkof]
      cases hh : hasKey gs p.key with
      | true =>
          have hstep : stepIssue gs i = appendToKey gs p.key i := by
            unfold stepIssue; rw [hp]; simp [hh]
          rw [hstep, keys_appendToKey]
          rfl
      | false =>
          have hstep : stepIssue gs i
              = appendToKey (gs ++ [⟨p.key, p.fields.summary, []⟩]) p.key i := by
            unfold stepIssue; rw [hp]; simp [hh]
          rw [hstep, keys_appendToKey, List.map_append]
          rfl

/-- One grouping step keeps the entry keys without duplicates. -/
theorem nodupKeys_stepIssue (gs : List GroupEntry) (i : JiraIssue)
    (hs : hasKey gs "NO_EPIC" = true)
    (hnd : (gs.map (fun g => g.key)).Nodup) :
    ((stepIssue gs i).map (fun g => g.key)).Nodup := by
  rw [keys_stepIssue gs i hs]
  cases hh : hasKey gs (keyOf i) with
  | true =>
      show (gs.map (fun g => g.key)).Nodup
      exact hnd
  | false =>
      have hnm := not_mem_keys_of_hasKey_false gs (keyOf i) hh
      show (gs.map (fun g => g.key) ++ [keyOf i]).Nodup
      exact List.Nodup.append hnd (List.nodup_singleton _)
        (by simpa [List.disjoint_singleton] using hnm)

/-- One grouping step keeps the sentinel entry present. -/
theorem hasKey_sentinel_stepIssue (gs : List GroupEntry) (i : JiraIssue)
    (hs : hasKey gs "NO_EPIC" = true) :
    hasKey (stepIssue gs i) "NO_EPIC" = true := by
  rw [hasKey_eq_isSome, findGroup_stepIssue gs i _ hs]
  by_cases hk : "NO_EPIC" = keyOf i
  · rw [if_pos hk]
    cases hg : findGroup gs "NO_EPIC" <;> simp
  · rw [if_neg hk, ← hasKey_eq_isSome]
    exact hs

/-- One grouping step keeps the head entry's key and display name. -/
theorem head_stepIssue (h : GroupEntry) (tl : List GroupEntry) (i : JiraIssue) :
    ∃ h2 tl2, stepIssue (h :: tl) i = h2 :: tl2
      ∧ h2.key = h.key ∧ h2.epicName = h.epicName := by
  cases hp : i.fields.parent with
  | none =>
      have hstep : stepIssue (h :: tl) i
          = (if h.key == "NO_EPIC" then {h with issues := h.issues ++ [i]} else h)
              :: appendToKey tl "NO_EPIC" i := by
        unfold stepIssue
        rw [hp]
        rfl
      refine ⟨_, _, hstep, ?_, ?_⟩ <;> cases hk : h.key == "NO_EPIC" <;> rfl
  | some p =>
      cases hh : hasKey (h :: tl) p.key with
      | true =>
          have hstep : stepIssue (h :: tl) i
              = (if h.key == p.key then {h with issues := h.issues ++ [i]} else h)
                  :: appendToKey tl p.key i := by
            unfold stepIssue
            rw [hp]
            simp only [hh]
            rfl
          refine ⟨_, _, hstep, ?_, ?_⟩ <;> cases hk : h.key == p.key <;> rfl
      | false =>
          have hstep : stepIssue (h :: tl) i
              = (if h.key == p.key then {h with issues := h.issues ++ [i]} else h)
                  :: appendToKey (tl ++ [⟨p.key, p.fields.summary, []⟩]) p.key i := by
            unfold stepIssue
            rw [hp]
            simp only [hh]
            rfl
          refine ⟨_, _, hstep, ?_, ?_⟩ <;> cases hk : h.key == p.key <;> rfl

/-- The grouping pass keeps the sentinel present and the keys duplicate-free. -/
theorem foldl_inv (issues : List JiraIssue) :
    ∀ gs : List GroupEntry, hasKey gs "NO_EPIC" = true →
      (gs.map (fun g => g.key)).Nodup →
      hasKey (issues.foldl stepIssue gs) "NO_EPIC" = true
        ∧ ((issues.foldl stepIssue gs).map (fun g => g.key)).Nodup := by
  induction issues with
  | nil => intro gs hs hnd; exact ⟨hs, hnd⟩
  | cons i rest ih =>
      intro gs hs hnd
      rw [List.foldl_cons]
      exact ih _ (hasKey_sentinel_stepIssue gs i hs) (nodupKeys_stepIssue gs i hs hnd)

/-- Master characterization of the grouping pass: the entry found under `k`
after folding holds the accumulator entry's issues followed by all issues
keyed `k`, in input order; an entry absent from the accumulator appears
exactly when some issue is keyed `k`, named by the first such issue's parent
summary. -/
theorem findGroup_foldl (issues : List JiraIssue) :
    ∀ (gs : List GroupEntry) (k : String), hasKey gs "NO_EPIC" = true →
      findGroup (issues.foldl stepIssue gs) k
        = (match findGroup gs k with
           | some g =>
             some {g with issues := g.issues ++ issues.filter (fun t => keyOf t == k)}
           | none =>
             match firstParentSummary issues k with
             | some nm => some ⟨k, nm, issues.filter (fun t => keyOf t == k)⟩
             | none => none) := by
  induction issues with
  | nil =>
      intro gs k hs
      cases hg : findGroup gs k with
      | none => simpa [firstParentSummary] using hg
      | some g => simpa using hg
  | cons i rest ih =>
      intro gs k hs
      rw [List.foldl_cons, ih (stepIssue gs i) k (hasKey_sentinel_stepIssue gs i hs),
        findGroup_stepIssue gs i k hs]
      by_cases hk : k = keyOf i
      · rw [if_pos hk]
        have hfk : (keyOf i == k) = true := by simp [hk]
        cases hg : findGroup gs k with
        | some g => simp [List.filter_cons, hfk, List.append_assoc]
        | none =>
            cases hp : i.fields.parent with
            | none =>
                exfalso
                have hkof : keyOf i = "NO_EPIC" := by unfold keyOf; rw [hp]
                rw [hkof] at hk
                rw [hk] at hg
                have hsome : (findGroup gs "NO_EPIC").isSome := by
                  rw [← hasKey_eq_isSome]; exact hs
                rw [hg] at hsome
                simp at hsome
            | some p =>
                have hpk : (p.key == k) = true := by
                  have h1 : p.key = keyOf i := by unfold keyOf; rw [hp]
                  simp [h1, hk]
                have hf : firstParentSummary (i :: rest) k = some p.fields.summary := by
                  unfold firstParentSummary
                  rw [List.findSome?_cons]
                  simp [hp, hpk]
                rw [hf]
                simp [newName, hp, List.filter_cons, hfk]
      · rw [if_neg hk]
        have hfk : (keyOf i == k) = false := by
          simp only [beq_eq_false_iff_ne, ne_eq]
          exact fun h2 => hk h2.symm
        have hfs : firstParentSummary (i :: rest) k = firstParentSummary rest k := by
          unfold firstParentSummary
          rw [List.findSome?_cons]
          cases hp : i.fields.parent with
          | none => simp
          | some p =>
              have hpk : (p.key == k) = false := by
                have h1 : p.key = keyOf i := by unfold keyOf; rw [hp]
                simp only [beq_eq_false_iff_ne, ne_eq, h1]
                exact fun h2 => hk h2.symm
              simp [hpk]
        rw [hfs]
        simp [List.filter_cons, hfk]

/-- Lookup in the initial group object. -/
theorem findGroup_init (k : String) :
    findGroup initGroups k
      = if "NO_EPIC" == k then some ⟨"NO_EPIC", "Tasks without Epic", []⟩
        else none := by
  unfold initGroups
  rw [findGroup_cons]
  rfl

/-- The grouping pass over the initial object keeps the sentinel and key
uniqueness. -/
theorem epicFold_inv (issues : List JiraIssue) :
    hasKey (epicFold issues) "NO_EPIC" = true
      ∧ ((epicFold issues).map (fun g => g.key)).Nodup :=
  foldl_inv issues initGroups rfl (by simp [initGroups])

/-- Lookup after the full grouping pass. -/
theorem findGroup_epicFold (issues : List JiraIssue) (k : String) :
    findGroup (epicFold issues) k
      = if "NO_EPIC" == k then
          some ⟨"NO_EPIC", "Tasks without Epic",
                issues.filter (fun t => keyOf t == k)⟩
        else
          match firstParentSummary issues k with
          | some nm => some ⟨k, nm, issues.filter (fun t => keyOf t == k)⟩
          | none => none := by
  unfold epicFold
  rw [findGroup_foldl issues initGroups k rfl, findGroup_init]
  cases h : "NO_EPIC" == k with
  | false => rfl
  | true => simp

/-- The sentinel entry after the grouping pass holds exactly the issues keyed
`"NO_EPIC"`, in input order. -/
theorem findGroup_epicFold_sentinel (issues : List JiraIssue) :
    findGroup (epicFold issues) "NO_EPIC"
      = some ⟨"NO_EPIC", "Tasks without Epic",
              issues.filter (fun t => keyOf t == "NO_EPIC")⟩ := by
  rw [findGroup_epicFold]
  simp

/-- With duplicate-free keys, lookup at a member's key finds that member. -/
theorem findGroup_self_of_mem (gs : List GroupEntry)
    (hnd : (gs.map (fun g => g.key)).Nodup) (g : GroupEntry) (hg : g ∈ gs) :
    findGroup gs g.key = some g := by
  induction gs with
  | nil => cases hg
  | cons h t ih =>
      rw [findGroup_cons]
      rw [List.map_cons] at hnd
      rcases List.mem_cons.mp hg with rfl | hgt
      · rw [if_pos (by simp)]
      · have hkne : h.key ≠ g.key := by
          intro he
          have hmem : g.key ∈ t.map (fun g => g.key) := List.mem_map_of_mem _ hgt
          exact (List.nodup_cons.mp hnd).1 (he ▸ hmem)
        rw [if_neg (by simp [hkne])]
        exact ih (List.nodup_cons.mp hnd).2 hgt

/-- Every entry of the grouping pass holds exactly the input issues keyed by
its key, in input order. -/
theorem issues_of_mem_epicFold (issues : List JiraIssue) (g : GroupEntry)
    (hg : g ∈ epicFold issues) :
    g.issues = issues.filter (fun t => keyOf t == g.key) := by
  have hnd := (epicFold_inv issues).2
  have hfind := findGroup_self_of_mem _ hnd g hg
  rw [findGroup_epicFold] at hfind
  cases hsent : ("NO_EPIC" == g.key) with
  | true =>
      rw [if_pos hsent] at hfind
      have heq := Option.some.inj hfind
      have hpr : ((⟨"NO_EPIC", "Tasks without Epic",
          issues.filter (fun t => keyOf t == g.key)⟩ : GroupEntry)).issues
            = issues.filter (fun t => keyOf t == g.key) := rfl
      rw [heq] at hpr
      exact hpr
  | false =>
      rw [if_neg (by simp [hsent])] at hfind
      cases hfs : firstParentSummary issues g.key with
      | none => rw [hfs] at hfind; cases hfind
      | some nm =>
          rw [hfs] at hfind
          have heq := Option.some.inj hfind
          rw [← heq]

/-- `organizeIssuesByEpic` either erases an empty sentinel group (no issue
keyed `"NO_EPIC"`) or returns the grouping pass unchanged. -/
theorem organize_eq_cases (issues : List JiraIssue) :
    (issues.filter (fun t => keyOf t == "NO_EPIC") = []
      ∧ organizeIssuesByEpic issues
          = (epicFold issues).eraseP (fun g2 => g2.key == "NO_EPIC"))
    ∨ (issues.filter (fun t => keyOf t == "NO_EPIC") ≠ []
      ∧ organizeIssuesByEpic issues = epicFold issues) := by
  have hdef : organizeIssuesByEpic issues
      = (match findGroup (epicFold issues) "NO_EPIC" with
         | some g =>
           if g.issues.isEmpty then
             (epicFold issues).eraseP (fun g2 => g2.key == "NO_EPIC")
           else epicFold issues
         | none => epicFold issues) := rfl
  rw [hdef, findGroup_epicFold_sentinel]
  cases hf : issues.filter (fun t => keyOf t == "NO_EPIC") with
  | nil => left; exact ⟨rfl, by simp⟩
  | cons a l => right; exact ⟨by simp, by simp⟩

/-- An entry whose key is not the sentinel key survives the deletion. -/
theorem mem_eraseP_of_key_ne (l : List GroupEntry) (g : GroupEntry)
    (hg : g ∈ l) (hk : (g.key == "NO_EPIC") = false) :
    g ∈ l.eraseP (fun g2 => g2.key == "NO_EPIC") := by
  induction l with
  | nil => cases hg
  | cons h t ih =>
      rw [List.eraseP_cons]
      cases hh : h.key == "NO_EPIC" with
      | false =>
          rw [Bool.cond_false]
          rcases List.mem_cons.mp hg with rfl | hgt
          · exact List.mem_cons_self _ _
          · exact List.mem_cons_of_mem _ (ih hgt)
      | true =>
          rw [Bool.cond_true]
          rcases List.mem_cons.mp hg with rfl | hgt
          · rw [hh] at hk; exact Bool.noConfusion hk
          · exact hgt

/-- Deletion only removes entries. -/
theorem mem_of_mem_eraseP (l : List GroupEntry) (g : GroupEntry)
    (hg : g ∈ l.eraseP (fun g2 => g2.key == "NO_EPIC")) : g ∈ l :=
  (List.eraseP_sublist l).subset hg

/-- With duplicate-free keys, no entry keyed `"NO_EPIC"` survives the
deletion. -/
theorem key_ne_of_mem_eraseP (l : List GroupEntry)
    (hnd : (l.map (fun g => g.key)).Nodup) (g : GroupEntry)
    (hg : g ∈ l.eraseP (fun g2 => g2.key == "NO_EPIC")) :
    g.key ≠ "NO_EPIC" := by
  induction l with
  | nil => cases hg
  | cons h t ih =>
      rw [List.eraseP_cons] at hg
      rw [List.map_cons] at hnd
      cases hh : h.key == "NO_EPIC" with
      | false =>
          rw [hh, Bool.cond_false] at hg
          rcases List.mem_cons.mp hg with rfl | hgt
          · simpa using hh
          · exact ih (List.nodup_cons.mp hnd).2 hgt
      | true =>
          rw [hh, Bool.cond_true] at hg
          intro he
          have h1 : h.key = "NO_EPIC" := by simpa using hh
          have h2 : g.key ∈ t.map (fun g => g.key) := List.mem_map_of_mem _ hg
          rw [he, ← h1] at h2
          exact (List.nodup_cons.mp hnd).1 h2

/-- If some member issue has parent key `k`, the first-parent-summary lookup
succeeds. -/
theorem firstParentSummary_ne_none (issues : List JiraIssue) (t : JiraIssue)
    (ht : t ∈ issues) (p : Parent) (hp : t.fields.parent = some p) :
    firstParentSummary issues p.key ≠ none := by
  intro h0
  unfold firstParentSummary at h0
  rw [List.findSome?_eq_none_iff] at h0
  have ha := h0 t ht
  rw [hp] at ha
  simp at ha

/-- The grouping pass keeps the sentinel entry first, with its display name. -/
theorem epicFold_head (issues : List JiraIssue) :
    ∃ h2 tl2, epicFold issues = h2 :: tl2
      ∧ h2.key = "NO_EPIC" ∧ h2.epicName = "Tasks without Epic" := by
  suffices hgen : ∀ (l : List JiraIssue) (h : GroupEntry) (tl : List GroupEntry),
      ∃ h2 tl2, l.foldl stepIssue (h :: tl) = h2 :: tl2
        ∧ h2.key = h.key ∧ h2.epicName = h.epicName by
    have hg := hgen issues ⟨"NO_EPIC", "Tasks without Epic", []⟩ []
    simpa [epicFold, initGroups] using hg
  intro l
  induction l with
  | nil => intro h tl; exact ⟨h, tl, rfl, rfl, rfl⟩
  | cons i rest ih =>
      intro h tl
      rw [List.foldl_cons]
      obtain ⟨h2, tl2, heq, hk2, hn2⟩ := head_stepIssue h tl i
      rw [heq]
      obtain ⟨h3, tl3, heq3, hk3, hn3⟩ := ih h2 tl2
      exact ⟨h3, tl3, heq3, hk3.trans hk2, hn3.trans hn2⟩

/-- C9 (amended). For every group of the Epic Grouper's result other than
the sentinel-keyed one, the display name bound to the group is the parent
summary carried by the first input ticket referencing that epic key — later
tickets with the same key and a different parent summary leave it unchanged —
and the group's tickets are exactly the input tickets referencing that key,
in input order (so such a later ticket is still appended to the group). A
ticket whose parent key equals the sentinel key `"NO_EPIC"` instead lands in
the sentinel group, whose name stays `"Tasks without Epic"`. -/
theorem organize_first_name_wins (issues : List JiraIssue) (g : GroupEntry)
    (hg : g ∈ organizeIssuesByEpic issues) (hk : g.key ≠ "NO_EPIC") :
    firstParentSummary issues g.key = some g.epicName
      ∧ g.issues = issues.filter (fun t => keyOf t == g.key) := by
  have hgF : g ∈ epicFold issues := by
    rcases organize_eq_cases issues with ⟨hemp, heq⟩ | ⟨hne, heq⟩
    · rw [heq] at hg; exact mem_of_mem_eraseP _ _ hg
    · rw [heq] at hg; exact hg
  have hnd := (epicFold_inv issues).2
  have hfind := findGroup_self_of_mem _ hnd g hgF
  rw [findGroup_epicFold] at hfind
  have hsent : ("NO_EPIC" == g.key) = false := by
    simp only [beq_eq_false_iff_ne, ne_eq]
    exact fun h2 => hk h2.symm
  rw [if_neg (by simp [hsent])] at hfind
  cases hfs : firstParentSummary issues g.key with
  | none => rw [hfs] at hfind; cases hfind
  | some nm =>
      rw [hfs] at hfind
      have heq := Option.some.inj hfind
      constructor
      · have hpr : ((⟨g.key, nm,
            issues.filter (fun t => keyOf t == g.key)⟩ : GroupEntry)).epicName
              = nm := rfl
        rw [heq] at hpr
        rw [hpr]
      · have hpr : ((⟨g.key, nm,
            issues.filter (fun t => keyOf t == g.key)⟩ : GroupEntry)).issues
              = issues.filter (fun t => keyOf t == g.key) := rfl
        rw [heq] at hpr
        exact hpr

/-- C9 (counterexample). For a single ticket whose parent epic key is the
sentinel key `"NO_EPIC"` (parent summary `"Platform"`), the group bound to
that key keeps the pre-created sentinel name `"Tasks without Epic"`, not the
name carried by the first ticket referencing the key, although the ticket is
appended to that group. -/
theorem organize_name_not_first_cex :
    ∃ g ∈ organizeIssuesByEpic
        [⟨"1", "T-9", ⟨"Do it", ⟨"Ready to Size"⟩,
           some ⟨"NO_EPIC", ⟨"Platform"⟩⟩⟩⟩],
      g.key = "NO_EPIC" ∧ g.epicName = "Tasks without Epic"
        ∧ g.epicName ≠ "Platform"
        ∧ (⟨"1", "T-9", ⟨"Do it", ⟨"Ready to Size"⟩,
             some ⟨"NO_EPIC", ⟨"Platform"⟩⟩⟩⟩ : JiraIssue) ∈ g.issues := by
  decide

/-- Witness for C9 (amended): two tickets referencing epic `EPIC-1`, the
first with parent summary `"Login"`, the second with parent summary
`"Changed"`; the resulting group keeps name `"Login"` and holds both. -/
theorem organize_first_name_wins_witness :
    ((⟨"EPIC-1", "Login",
        [⟨"1", "T-1", ⟨"Fix bug", ⟨"Ready to Size"⟩,
           some ⟨"EPIC-1", ⟨"Login"⟩⟩⟩⟩,
         ⟨"2", "T-2", ⟨"Other", ⟨"Ready to Size"⟩,
           some ⟨"EPIC-1", ⟨"Changed"⟩⟩⟩⟩]⟩ : GroupEntry)
      ∈ organizeIssuesByEpic
          [⟨"1", "T-1", ⟨"Fix bug", ⟨"Ready to Size"⟩,
             some ⟨"EPIC-1", ⟨"Login"⟩⟩⟩⟩,
           ⟨"2", "T-2", ⟨"Other", ⟨"Ready to Size"⟩,
             some ⟨"EPIC-1", ⟨"Changed"⟩⟩⟩⟩]
      ∧ ("EPIC-1" : String) ≠ "NO_EPIC")
    ∧ (firstParentSummary
          [⟨"1", "T-1", ⟨"Fix bug", ⟨"Ready to Size"⟩,
             some ⟨"EPIC-1", ⟨"Login"⟩⟩⟩⟩,
           ⟨"2", "T-2", ⟨"Other", ⟨"Ready to Size"⟩,
             some ⟨"EPIC-1", ⟨"Changed"⟩⟩⟩⟩]
          (⟨"EPIC-1", "Login",
              [⟨"1", "T-1", ⟨"Fix bug", ⟨"Ready to Size"⟩,
                 some ⟨"EPIC-1", ⟨"Login"⟩⟩⟩⟩,
               ⟨"2", "T-2", ⟨"Other", ⟨"Ready to Size"⟩,
                 some ⟨"EPIC-1", ⟨"Changed"⟩⟩⟩⟩]⟩ : GroupEntry).key
          = some (⟨"EPIC-1", "Login",
              [⟨"1", "T-1", ⟨"Fix bug", ⟨"Ready to Size"⟩,
                 some ⟨"EPIC-1", ⟨"Login"⟩⟩⟩⟩,
               ⟨"2", "T-2", ⟨"Other", ⟨"Ready to Size"⟩,
                 some ⟨"EPIC-1", ⟨"Changed"⟩⟩⟩⟩]⟩ : GroupEntry).epicName
        ∧ (⟨"EPIC-1", "Login",
              [⟨"1", "T-1", ⟨"Fix bug", ⟨"Ready to Size"⟩,
                 some ⟨"EPIC-1", ⟨"Login"⟩⟩⟩⟩,
               ⟨"2", "T-2", ⟨"Other", ⟨"Ready to Size"⟩,
                 some ⟨"EPIC-1", ⟨"Changed"⟩⟩⟩⟩]⟩ : GroupEntry).issues
            = [⟨"1", "T-1", ⟨"Fix bug", ⟨"Ready to Size"⟩,
                 some ⟨"EPIC-1", ⟨"Login"⟩⟩⟩⟩,
               ⟨"2", "T-2", ⟨"Other", ⟨"Ready to Size"⟩,
                 some ⟨"EPIC-1", ⟨"Changed"⟩⟩⟩⟩].filter
                (fun t => keyOf t
                  == (⟨"EPIC-1", "Login",
                      [⟨"1", "T-1", ⟨"Fix bug", ⟨"Ready to Size"⟩,
                         some ⟨"EPIC-1", ⟨"Login"⟩⟩⟩⟩,
                       ⟨"2", "T-2", ⟨"Other", ⟨"Ready to Size"⟩,
                         some ⟨"EPIC-1", ⟨"Changed"⟩⟩⟩⟩]⟩ : GroupEntry).key)) :=
  ⟨⟨by decide, by decide⟩,
    organize_first_name_wins _ _ (by decide) (by decide)⟩

/-- C5 (amended). Every ticket of the input is placed in exactly one group of
the Epic Grouper's result, namely the group keyed by its parent epic's key
(the sentinel key `"NO_EPIC"` for tickets without a parent); and the
sentinel-keyed group is present in the result if and only if some ticket has
no parent or has a parent whose epic key is literally the sentinel key
`"NO_EPIC"`. -/
theorem organize_partition (issues : List JiraIssue) :
    (∀ t ∈ issues,
        ∃ g, g ∈ organizeIssuesByEpic issues ∧ t ∈ g.issues ∧ g.key = keyOf t
          ∧ ∀ g2 ∈ organizeIssuesByEpic issues, t ∈ g2.issues → g2 = g)
    ∧ ((∃ g ∈ organizeIssuesByEpic issues, g.key = "NO_EPIC")
        ↔ ∃ t ∈ issues, (t.fields.parent = none
            ∨ ∃ p, t.fields.parent = some p ∧ p.key = "NO_EPIC")) := by
  have hnd := (epicFold_inv issues).2
  have hmemF : ∀ g ∈ organizeIssuesByEpic issues, g ∈ epicFold issues := by
    intro g hg
    rcases organize_eq_cases issues with ⟨_, heq⟩ | ⟨_, heq⟩
    · rw [heq] at hg; exact mem_of_mem_eraseP _ _ hg
    · rw [heq] at hg; exact hg
  constructor
  · intro t ht
    obtain ⟨g, hfg⟩ : ∃ g, findGroup (epicFold issues) (keyOf t) = some g := by
      rw [findGroup_epicFold]
      by_cases hks : keyOf t = "NO_EPIC"
      · rw [if_pos (by simp [hks])]
        exact ⟨_, rfl⟩
      · rw [if_neg (by simp; exact fun h2 => hks h2.symm)]
        cases hp : t.fields.parent with
        | none =>
            exfalso
            have : keyOf t = "NO_EPIC" := by unfold keyOf; rw [hp]
            exact hks this
        | some p =>
            have hpk : p.key = keyOf t := by unfold keyOf; rw [hp]
            have hne := firstParentSummary_ne_none issues t ht p hp
            rw [hpk] at hne
            cases hfs : firstParentSummary issues (keyOf t) with
            | none => exact absurd hfs hne
            | some nm => exact ⟨_, rfl⟩
    have hgkey : g.key = keyOf t := findGroup_key _ _ _ hfg
    have hgF : g ∈ epicFold issues := findGroup_mem _ _ _ hfg
    have hgiss : g.issues = issues.filter (fun x => keyOf x == g.key) :=
      issues_of_mem_epicFold issues g hgF
    have htin : t ∈ g.issues := by
      rw [hgiss, List.mem_filter]
      exact ⟨ht, by simp [hgkey]⟩
    have hgorg : g ∈ organizeIssuesByEpic issues := by
      rcases organize_eq_cases issues with ⟨hemp, heq⟩ | ⟨hne, heq⟩
      · have hkne : (g.key == "NO_EPIC") = false := by
          simp only [beq_eq_false_iff_ne, ne_eq]
          intro he
          have htfil : t ∈ issues.filter (fun x => keyOf x == "NO_EPIC") := by
            rw [List.mem_filter]
            refine ⟨ht, ?_⟩
            rw [← hgkey, he]
            simp
          rw [hemp] at htfil
          cases htfil
        rw [heq]
        exact mem_eraseP_of_key_ne _ _ hgF hkne
      · rw [heq]; exact hgF
    refine ⟨g, hgorg, htin, hgkey, ?_⟩
    intro g2 hg2 ht2
    have hg2F := hmemF g2 hg2
    have h2iss := issues_of_mem_epicFold issues g2 hg2F
    have h2key : keyOf t = g2.key := by
      rw [h2iss, List.mem_filter] at ht2
      simpa using ht2.2
    have hfind2 := findGroup_self_of_mem _ hnd g2 hg2F
    rw [← h2key] at hfind2
    exact (Option.some.inj (hfg.symm.trans hfind2)).symm
  · constructor
    · rintro ⟨g, hg, hkey⟩
      by_contra hno
      push_neg at hno
      have hemp : issues.filter (fun x => keyOf x == "NO_EPIC") = [] := by
        rw [List.filter_eq_nil_iff]
        intro t ht hb
        have hnot := hno t ht
        cases hp : t.fields.parent with
        | none => exact hnot.1 hp
        | some p =>
            have hpk : p.key = keyOf t := by unfold keyOf; rw [hp]
            have : keyOf t = "NO_EPIC" := by simpa using hb
            exact hnot.2 p hp (hpk.trans this)
      rcases organize_eq_cases issues with ⟨_, heq⟩ | ⟨hne, _⟩
      · rw [heq] at hg
        exact key_ne_of_mem_eraseP _ hnd g hg hkey
      · exact hne hemp
    · rintro ⟨t, ht, hcase⟩
      have hkt : keyOf t = "NO_EPIC" := by
        rcases hcase with hp | ⟨p, hp, hpk⟩
        · unfold keyOf; rw [hp]
        · unfold keyOf; rw [hp]; exact hpk
      have hmemfil : t ∈ issues.filter (fun x => keyOf x == "NO_EPIC") := by
        rw [List.mem_filter]
        exact ⟨ht, by simp [hkt]⟩
      have hne2 : issues.filter (fun x => keyOf x == "NO_EPIC") ≠ [] := by
        intro h0; rw [h0] at hmemfil; cases hmemfil
      rcases organize_eq_cases issues with ⟨hemp, _⟩ | ⟨_, heq⟩
      · exact absurd hemp hne2
      · refine ⟨⟨"NO_EPIC", "Tasks without Epic",
            issues.filter (fun x => keyOf x == "NO_EPIC")⟩, ?_, rfl⟩
        rw [heq]
        exact findGroup_mem _ _ _ (findGroup_epicFold_sentinel issues)

/-- C5 (counterexample). A single ticket whose parent epic key is literally
`"NO_EPIC"` makes the sentinel group present although no ticket lacks a
parent, refuting "the sentinel no-epic group is present iff at least one
ticket has no parent". -/
theorem organize_sentinel_iff_cex :
    (∃ g ∈ organizeIssuesByEpic
        [⟨"1", "T-5", ⟨"Task", ⟨"Ready to Size"⟩,
           some ⟨"NO_EPIC", ⟨"Body"⟩⟩⟩⟩],
      g.key = "NO_EPIC")
    ∧ ∀ t ∈ ([⟨"1", "T-5", ⟨"Task", ⟨"Ready to Size"⟩,
           some ⟨"NO_EPIC", ⟨"Body"⟩⟩⟩⟩] : List JiraIssue),
        t.fields.parent ≠ none := by
  decide

/-- Witness for C5 (amended): a parented and an unparented ticket; the
parented one sits in exactly one group (keyed by its epic), and the sentinel
group is present since the second ticket has no parent. -/
theorem organize_partition_witness :
    ((⟨"1", "T-1", ⟨"Fix bug", ⟨"Ready to Size"⟩,
        some ⟨"EPIC-9", ⟨"Login"⟩⟩⟩⟩ : JiraIssue)
      ∈ [⟨"1", "T-1", ⟨"Fix bug", ⟨"Ready to Size"⟩,
            some ⟨"EPIC-9", ⟨"Login"⟩⟩⟩⟩,
          ⟨"2", "T-2", ⟨"Other", ⟨"Ready to Size"⟩, none⟩⟩])
    ∧ (∃ g, g ∈ organizeIssuesByEpic
          [⟨"1", "T-1", ⟨"Fix bug", ⟨"Ready to Size"⟩,
              some ⟨"EPIC-9", ⟨"Login"⟩⟩⟩⟩,
            ⟨"2", "T-2", ⟨"Other", ⟨"Ready to Size"⟩, none⟩⟩]
        ∧ (⟨"1", "T-1", ⟨"Fix bug", ⟨"Ready to Size"⟩,
              some ⟨"EPIC-9", ⟨"Login"⟩⟩⟩⟩ : JiraIssue) ∈ g.issues
        ∧ g.key = keyOf ⟨"1", "T-1", ⟨"Fix bug", ⟨"Ready to Size"⟩,
              some ⟨"EPIC-9", ⟨"Login"⟩⟩⟩⟩
        ∧ ∀ g2 ∈ organizeIssuesByEpic
              [⟨"1", "T-1", ⟨"Fix bug", ⟨"Ready to Size"⟩,
                  some ⟨"EPIC-9", ⟨"Login"⟩⟩⟩⟩,
                ⟨"2", "T-2", ⟨"Other", ⟨"Ready to Size"⟩, none⟩⟩],
            (⟨"1", "T-1", ⟨"Fix bug", ⟨"Ready to Size"⟩,
                some ⟨"EPIC-9", ⟨"Login"⟩⟩⟩⟩ : JiraIssue) ∈ g2.issues → g2 = g)
    ∧ ((∃ g ∈ organizeIssuesByEpic
            [⟨"1", "T-1", ⟨"Fix bug", ⟨"Ready to Size"⟩,
                some ⟨"EPIC-9", ⟨"Login"⟩⟩⟩⟩,
              ⟨"2", "T-2", ⟨"Other", ⟨"Ready to Size"⟩, none⟩⟩],
          g.key = "NO_EPIC")
        ↔ ∃ t ∈ ([⟨"1", "T-1", ⟨"Fix bug", ⟨"Ready to Size"⟩,
                some ⟨"EPIC-9", ⟨"Login"⟩⟩⟩⟩,
              ⟨"2", "T-2", ⟨"Other", ⟨"Ready to Size"⟩, none⟩⟩] : List JiraIssue),
            (t.fields.parent = none
              ∨ ∃ p, t.fields.parent = some p ∧ p.key = "NO_EPIC")) :=
  ⟨by decide,
    (organize_partition
      [⟨"1", "T-1", ⟨"Fix bug", ⟨"Ready to Size"⟩,
          some ⟨"EPIC-9", ⟨"Login"⟩⟩⟩⟩,
        ⟨"2", "T-2", ⟨"Other", ⟨"Ready to Size"⟩, none⟩⟩]).1 _ (by decide),
    (organize_partition
      [⟨"1", "T-1", ⟨"Fix bug", ⟨"Ready to Size"⟩,
          some ⟨"EPIC-9", ⟨"Login"⟩⟩⟩⟩,
        ⟨"2", "T-2", ⟨"Other", ⟨"Ready to Size"⟩, none⟩⟩]).2⟩

/-- C10. Because the sentinel group is created before any tickets are
processed and new epic groups are appended on the right, whenever at least
one ticket lacks a parent the `"NO_EPIC"` group is the first entry of the
result mapping's iteration order, every unparented ticket's line group comes
first, and the Formatter renders that group's lines before the lines of
every epic-keyed group. -/
theorem organize_sentinel_renders_first (baseUrl : String)
    (issues : List JiraIssue) (h : ∃ t ∈ issues, t.fields.parent = none) :
    ∃ g rest, organizeIssuesByEpic issues = g :: rest
      ∧ g.key = "NO_EPIC" ∧ g.epicName = "Tasks without Epic"
      ∧ (∀ t ∈ issues, t.fields.parent = none → t ∈ g.issues)
      ∧ (∀ g2 ∈ rest, g2.key ≠ "NO_EPIC")
      ∧ generateSlackCommands baseUrl (g :: rest)
          = (strConcat (g.issues.map (issueLine baseUrl)) ++ "\n")
              ++ generateSlackCommands baseUrl rest := by
  obtain ⟨t0, ht0, hp0⟩ := h
  have hkt0 : keyOf t0 = "NO_EPIC" := by unfold keyOf; rw [hp0]
  have hmemfil : t0 ∈ issues.filter (fun x => keyOf x == "NO_EPIC") := by
    rw [List.mem_filter]
    exact ⟨ht0, by simp [hkt0]⟩
  have hne : issues.filter (fun x => keyOf x == "NO_EPIC") ≠ [] := by
    intro h0; rw [h0] at hmemfil; cases hmemfil
  have horg : organizeIssuesByEpic issues = epicFold issues := by
    rcases organize_eq_cases issues with ⟨hemp, _⟩ | ⟨_, heq⟩
    · exact absurd hemp hne
    · exact heq
  obtain ⟨g, rest, hF, hgk, hgn⟩ := epicFold_head issues
  have hgmem : g ∈ epicFold issues := by rw [hF]; exact List.mem_cons_self _ _
  have hgiss : g.issues = issues.filter (fun x => keyOf x == g.key) :=
    issues_of_mem_epicFold issues g hgmem
  refine ⟨g, rest, by rw [horg, hF], hgk, hgn, ?_, ?_,
    generateSlackCommands_cons baseUrl g rest⟩
  · intro t ht hp
    have hkt : keyOf t = "NO_EPIC" := by unfold keyOf; rw [hp]
    rw [hgiss, List.mem_filter]
    exact ⟨ht, by simp [hkt, hgk]⟩
  · intro g2 hg2
    have hnd := (epicFold_inv issues).2
    rw [hF, List.map_cons] at hnd
    intro he
    have h1 := (List.nodup_cons.mp hnd).1
    have h2 : g2.key ∈ rest.map (fun g => g.key) := List.mem_map_of_mem _ hg2
    rw [he] at h2
    rw [hgk] at h1
    exact h1 h2

/-- Witness for C10: an unparented ticket and an epic-keyed ticket; the
sentinel group comes first and the Formatter emits its lines first. -/
theorem organize_sentinel_renders_first_witness :
    (∃ t ∈ ([⟨"1", "T-1", ⟨"Fix bug", ⟨"Ready to Size"⟩, none⟩⟩,
        ⟨"2", "T-2", ⟨"Other", ⟨"Ready to Size"⟩,
          some ⟨"EPIC-7", ⟨"Search"⟩⟩⟩⟩] : List JiraIssue),
        t.fields.parent = none)
    ∧ (∃ g rest, organizeIssuesByEpic
          [⟨"1", "T-1", ⟨"Fix bug", ⟨"Ready to Size"⟩, none⟩⟩,
            ⟨"2", "T-2", ⟨"Other", ⟨"Ready to Size"⟩,
              some ⟨"EPIC-7", ⟨"Search"⟩⟩⟩⟩] = g :: rest
        ∧ g.key = "NO_EPIC" ∧ g.epicName = "Tasks without Epic"
        ∧ (∀ t ∈ ([⟨"1", "T-1", ⟨"Fix bug", ⟨"Ready to Size"⟩, none⟩⟩,
              ⟨"2", "T-2", ⟨"Other", ⟨"Ready to Size"⟩,
                some ⟨"EPIC-7", ⟨"Search"⟩⟩⟩⟩] : List JiraIssue),
              t.fields.parent = none → t ∈ g.issues)
        ∧ (∀ g2 ∈ rest, g2.key ≠ "NO_EPIC")
        ∧ generateSlackCommands "https://x.atlassian.net" (g :: rest)
            = (strConcat (g.issues.map (issueLine "https://x.atlassian.net"))
                ++ "\n")
                ++ generateSlackCommands "https://x.atlassian.net" rest) :=
  ⟨by decide,
    organize_sentinel_renders_first "https://x.atlassian.net"
      [⟨"1", "T-1", ⟨"Fix bug", ⟨"Ready to Size"⟩, none⟩⟩,
        ⟨"2", "T-2", ⟨"Other", ⟨"Ready to Size"⟩,
          some ⟨"EPIC-7", ⟨"Search"⟩⟩⟩⟩] (by decide)⟩

/-! ## Run Orchestrator (`main`, `main.ts` lines 392-488, and the startup
configuration check, lines 8-19) -/

/-- The four required environment values (lines 8-11); a variable absent from
the environment defaults to the empty string. -/
structure Config where
  baseUrl : String
  email : String
  apiToken : String
  boardId : String

/-- The startup test of lines 14: `!JIRA_BASE_URL || !JIRA_EMAIL ||
!JIRA_API_TOKEN || !JIRA_BOARD_ID` (a string is falsy exactly when empty). -/
def missingConfig (c : Config) : Bool :=
  c.baseUrl.isEmpty || c.email.isEmpty || c.apiToken.isEmpty || c.boardId.isEmpty

/-- `getReadyToSizeIssuesFromSprint` (lines 190-215): the search oracle
returns the response issues per sprint id, `none` standing for a missing
`issues` field or a thrown request (both yield `[]`). -/
def getReadyToSizeIssuesFromSprint (search : Nat → Option (List JiraIssue))
    (sprintId : Nat) : List JiraIssue :=
  match search sprintId with
  | some issues => issues
  | none => []

/-- The externally observable inputs of one run: the optional command-line
ticket key (`process.argv[2]`), the ticket's sprint custom field, the board's
sprint page trace, the issue-search responses, and an optional unexpected
exception thrown during orchestration (caught by `main`'s `try`). -/
structure World where
  arg : Option String
  agileField : FieldValue
  pages : List PageResult
  searchIssues : Nat → Option (List JiraIssue)
  unexpected : Option String

/-- Terminal states of a run: no sprint resolved, no matching issues, or
success carrying the rendered output and the optional file write. -/
inductive Outcome where
  | noSprint : Outcome
  | noIssues : Outcome
  | done (output : String) (fileWrite : Option String) : Outcome

/-- The body of `main` (lines 392-488) given resolved inputs: with a ticket
argument, resolve the sprint from the ticket's custom field and, on success,
fetch, group, render, print, and also write the rendered text to the output
file; without an argument, resolve the next sprint from the configured
board's sprint list and do the same but without the file write. Early
returns: no sprint (`noSprint`), no issues (`noIssues`). -/
def mainRun (c : Config) (w : World) : Outcome :=
  match w.arg with
  | some _ =>
    match getSprintFromAgileAPI w.agileField with
    | none => .noSprint
    | some sprint =>
      if (getReadyToSizeIssuesFromSprint w.searchIssues sprint.id).isEmpty then
        .noIssues
      else
        .done
          (generateSlackCommands c.baseUrl
            (organizeIssuesByEpic
              (getReadyToSizeIssuesFromSprint w.searchIssues sprint.id)))
          (some (generateSlackCommands c.baseUrl
            (organizeIssuesByEpic
              (getReadyToSizeIssuesFromSprint w.searchIssues sprint.id))))
  | none =>
    match getNextSprint (getAllSprints w.pages) with
    | none => .noSprint
    | some sprint =>
      if (getReadyToSizeIssuesFromSprint w.searchIssues sprint.id).isEmpty then
        .noIssues
      else
        .done
          (generateSlackCommands c.baseUrl
            (organizeIssuesByEpic
              (getReadyToSizeIssuesFromSprint w.searchIssues sprint.id)))
          none

/-- `main` wrapped in its `try`/`catch` (lines 392-486): an unexpected
exception is caught (`Except.error`), logged, and the function returns
normally either way. -/
def mainBody (c : Config) (w : World) : Except String Outcome :=
  match w.unexpected with
  | some e => .error e
  | none => .ok (mainRun c w)

/-- The whole process: the startup check at module load (lines 14-19)
terminates the process with `process.exit(1)` before `main` ever runs when a
required value is missing (`none`); otherwise `main` runs to completion. -/
def programRun (c : Config) (w : World) : Option (Except String Outcome) :=
  if missingConfig c then none else some (mainBody c w)

/-- Process exit code: `1` from `process.exit(1)` on missing configuration,
else the normal exit `0` (no other `process.exit` call exists). -/
def programExitCode (c : Config) (w : World) : Nat :=
  match programRun c w with
  | none => 1
  | some _ => 0

/-- The file write an outcome performs (`fs.writeFileSync`, line 442). -/
def outcomeWrite : Outcome → Option String
  | .done _ fw => fw
  | _ => none

/-- Content of the fixed output file after a run, given its prior content:
`fs.writeFileSync` fully replaces the content when a write happens, and the
file is untouched otherwise. -/
def fileAfterRun (c : Config) (w : World) (prev : Option String) :
    Option String :=
  match outcomeWrite (mainRun c w) with
  | some t => some t
  | none => prev

/-- C7. The process terminates with a non-zero exit code exactly when a
required configuration value is missing at startup (in which case the run
body never executes); with complete configuration the exit code is `0` and
the run completes normally for every world — every transport failure, "no
sprint", "no issues", and unexpected orchestration error is absorbed inside
`mainBody`. -/
theorem exit_nonzero_iff_missing_config (c : Config) (w : World) :
    (programExitCode c w ≠ 0 ↔ missingConfig c = true)
    ∧ (missingConfig c = true → programRun c w = none ∧ programExitCode c w = 1)
    ∧ (missingConfig c = false
        → programRun c w = some (mainBody c w) ∧ programExitCode c w = 0) := by
  unfold programExitCode programRun
  cases hm : missingConfig c <;> simp [hm]

/-- Witness for C7: with all four configuration values present, the run
completes and the exit code is `0`. -/
theorem exit_nonzero_iff_missing_config_witness :
    (missingConfig ⟨"https://x.atlassian.net", "e@x.com", "tok", "1"⟩ = false)
    ∧ (programRun ⟨"https://x.atlassian.net", "e@x.com", "tok", "1"⟩
          ⟨none, FieldValue.missing, [], fun _ => none, none⟩
        = some (mainBody ⟨"https://x.atlassian.net", "e@x.com", "tok", "1"⟩
            ⟨none, FieldValue.missing, [], fun _ => none, none⟩)
      ∧ programExitCode ⟨"https://x.atlassian.net", "e@x.com", "tok", "1"⟩
          ⟨none, FieldValue.missing, [], fun _ => none, none⟩ = 0) :=
  ⟨by decide,
    (exit_nonzero_iff_missing_config
      ⟨"https://x.atlassian.net", "e@x.com", "tok", "1"⟩
      ⟨none, FieldValue.missing, [], fun _ => none, none⟩).2.2 (by decide)⟩

/-- C8. The run writes the rendered output to the fixed output file — fully
replacing any prior content — exactly when a ticket argument was supplied and
the run reached success; in board mode, and on every early-exit outcome, the
file keeps its prior content. -/
theorem fileWrite_iff_ticket_mode (c : Config) (w : World)
    (prev : Option String) :
    fileAfterRun c w prev
      = (match w.arg, mainRun c w with
         | some _, .done text _ => some text
         | _, _ => prev) := by
  unfold fileAfterRun outcomeWrite mainRun
  cases ha : w.arg with
  | none =>
      cases hs : getNextSprint (getAllSprints w.pages) with
      | none => rfl
      | some sprint =>
          by_cases hi :
              (getReadyToSizeIssuesFromSprint w.searchIssues sprint.id).isEmpty
                = true
          · simp [hi]
          · simp [hi]
  | some a =>
      cases hf : getSprintFromAgileAPI w.agileField with
      | none => rfl
      | some sprint =>
          by_cases hi :
              (getReadyToSizeIssuesFromSprint w.searchIssues sprint.id).isEmpty
                = true
          · simp [hi]
          · simp [hi]

end JiraSizer
